import Mathlib

/-!
Verification of the scene indexing and hit-testing core of the `metallic`
2D rendering engine.

The development shallowly embeds the Rust sources:

* the spatial index (`HitEngine`) from
  `pkgs/metallic/src/rendering_engine/hit_engine/mod.rs`, generically over a
  linearly ordered scalar type standing for `f32` under `f32::total_cmp`
  (the engine only ever compares scalars through `total_cmp`, which is a
  total order on all bit patterns, so a `LinearOrder` instance is the exact
  interface the code uses);
* the bit-pattern model `F32` of `f32` with the `total_cmp` order, used for
  the totality/no-panic claims;
* the layer-ordered scene store (`add_object`, `push_layer`, `pop_layer`)
  from `pkgs/metallic/src/rendering_engine/mod.rs`;
* the keyed object store (`ObjectEngine`) from
  `src/rendering_engine/object_engine.rs`;
* the coordinate converter from `pkgs/metallic/src/primitives/mod.rs`,
  with real (rational) arithmetic standing for `f32`/`f64` arithmetic;
* the input queue and dispatcher from `src/scene.rs`.

`slice::binary_search_by` is embedded as the branchless loop of the Rust
standard library (base/size halving with no early exit, final comparison at
`base`); the loop is written with an explicit fuel argument equal to the
initial `size`, which strictly exceeds the iteration count, so that the
function is structurally recursive and computable by the kernel.
-/

namespace Metallic

set_option linter.unusedSectionVars false

section BinarySearch

variable {ι α : Type} [Inhabited ι] [LinearOrder α] [Inhabited α]

/-- Entry of a list of `(tag, scalar)` pairs at index `i`; out-of-range
reads return a default value (every execution below stays in range). -/
def entryAt (l : List (ι × α)) (i : Nat) : ι × α :=
  (l.get? i).getD (default, default)

/-- Scalar component read by the binary-search comparator at index `i`. -/
def scalAt (l : List (ι × α)) (i : Nat) : α :=
  (entryAt l i).2

/-- The loop of Rust `slice::binary_search_by` (branchless variant of the
standard library): while `1 < size`, probe `mid = base + size / 2`, move
`base` to `mid` unless the probe compares greater than the target, and
shrink `size` to `size - size / 2`.  The comparator is
`|(_, el)| el.total_cmp(&point)`, i.e. `compare` of the scalar with the
probe point.  `fuel` bounds the number of iterations; it is consumed once
per iteration while `size` strictly decreases, so starting with
`fuel = size` reproduces the loop exactly. -/
def bs_loop (l : List (ι × α)) (point : α) : Nat → Nat → Nat → Nat
  | 0, base, _ => base
  | fuel + 1, base, size =>
    if 1 < size then
      let half := size / 2
      let mid := base + half
      bs_loop l point fuel
        (if compare (scalAt l mid) point = Ordering.gt then base else mid)
        (size - half)
    else base

/-- Rust `slice::binary_search_by` with comparator
`|(_, el)| el.total_cmp(&point)`: `Except.ok i` is `Ok(i)` (element at `i`
compares equal), `Except.error i` is `Err(i)` (sorted insertion point). -/
def binarySearchBy (l : List (ι × α)) (point : α) : Except Nat Nat :=
  if l.length = 0 then .error 0
  else
    let base := bs_loop l point l.length 0 l.length
    let c := compare (scalAt l base) point
    if c = Ordering.eq then .ok base
    else .error (base + (if c = Ordering.lt then 1 else 0))

/-- Index taken by `search_front`: `Ok(index) => index + 1`,
`Err(index) => index`. -/
def front_index (l : List (ι × α)) (point : α) : Nat :=
  match binarySearchBy l point with
  | .ok index => index + 1
  | .error index => index

/-- Index taken by `search_behind`: `Ok(index) => index`,
`Err(index) => index`. -/
def behind_index (l : List (ι × α)) (point : α) : Nat :=
  match binarySearchBy l point with
  | .ok index => index
  | .error index => index

/-- Rust `collect`: project a slice of `(id, scalar)` pairs to its ids
(the Rust code builds a `HashSet<Uuid>`; we keep a list and state all
results as membership, which is what a set is). -/
def collect (l : List (ι × α)) : List ι :=
  l.map Prod.fst

/-- Rust `search_front` from `hit_engine/mod.rs`: ids of all entries strictly
before the computed index. -/
def search_front (l : List (ι × α)) (point : α) : List ι :=
  collect (l.take (front_index l point))

/-- Rust `search_behind` from `hit_engine/mod.rs`: ids of all entries at or
after the computed index. -/
def search_behind (l : List (ι × α)) (point : α) : List ι :=
  collect (l.drop (behind_index l point))

/-- Rust `determine_insertion_point` from `HitEngine::insert`:
`Ok(index) => index`, `Err(index) => index`. -/
def determine_insertion_point (l : List (ι × α)) (point : α) : Nat :=
  match binarySearchBy l point with
  | .ok index => index
  | .error index => index

end BinarySearch

section Bounds

variable {ι α : Type} [Inhabited ι] [LinearOrder α] [Inhabited α]

/-- The loop keeps its result in the window `[base, base + size)`,
for every list (sorted or not) and every scalar, as long as the fuel covers
the iteration count. -/
theorem bs_loop_range (l : List (ι × α)) (point : α) :
    ∀ fuel size base, size ≤ fuel → 1 ≤ size →
      base ≤ bs_loop l point fuel base size ∧
        bs_loop l point fuel base size < base + size := by
  intro fuel
  induction fuel with
  | zero => intro size base hsf hs; omega
  | succ n ih =>
    intro size base hsf hs
    by_cases h : 1 < size
    · have hhalf : 1 ≤ size / 2 := Nat.one_le_div_iff (by omega) |>.mpr (by omega)
      have hrec := ih (size - size / 2)
        (if compare (scalAt l (base + size / 2)) point = Ordering.gt then base
          else base + size / 2)
        (by omega) (by omega)
      rw [bs_loop, if_pos h]
      constructor
      · refine le_trans ?_ hrec.1
        split <;> omega
      · refine lt_of_lt_of_le hrec.2 ?_
        split <;> omega
    · rw [bs_loop, if_neg h]
      omega

/-- The raw binary-search result never exceeds the list length: on `Ok i`,
`i` is a valid element index, and on `Err i`, `i ≤ length`. -/
theorem binarySearchBy_le_length (l : List (ι × α)) (point : α) :
    (∀ i, binarySearchBy l point = .ok i → i < l.length) ∧
      (∀ i, binarySearchBy l point = .error i → i ≤ l.length) := by
  by_cases hnil : l.length = 0
  · constructor <;> intro i hi <;>
      simp only [binarySearchBy, if_pos hnil] at hi
    · cases hi
    · cases hi; omega
  · have hrange := bs_loop_range l point l.length l.length 0 le_rfl (by omega)
    constructor <;> intro i hi <;>
      simp only [binarySearchBy, if_neg hnil] at hi
    · split at hi
      · cases hi; omega
      · cases hi
    · split at hi
      · cases hi
      · cases hi
        split <;> omega

/-- The insertion index computed by `HitEngine::insert` is at most the list
length, for every input: the `Vec::insert` precondition (`index <= len`,
otherwise a panic) always holds. -/
theorem determine_insertion_point_le_length (l : List (ι × α)) (point : α) :
    determine_insertion_point l point ≤ l.length := by
  have h := binarySearchBy_le_length l point
  unfold determine_insertion_point
  rcases hbs : binarySearchBy l point with i | i
  · exact h.2 i hbs
  · exact le_of_lt (h.1 i hbs)

/-- The slice bound taken by `search_front` is at most the list length, for
every input: the slicing `&list[..index]` never panics. -/
theorem front_index_le_length (l : List (ι × α)) (point : α) :
    front_index l point ≤ l.length := by
  have h := binarySearchBy_le_length l point
  unfold front_index
  rcases hbs : binarySearchBy l point with i | i
  · exact h.2 i hbs
  · exact h.1 i hbs

/-- The slice bound taken by `search_behind` is at most the list length, for
every input: the slicing `&list[index..]` never panics. -/
theorem behind_index_le_length (l : List (ι × α)) (point : α) :
    behind_index l point ≤ l.length := by
  have h := binarySearchBy_le_length l point
  unfold behind_index
  rcases hbs : binarySearchBy l point with i | i
  · exact h.2 i hbs
  · exact le_of_lt (h.1 i hbs)

end Bounds

section Sorted

variable {ι α : Type} [Inhabited ι] [LinearOrder α] [Inhabited α]

/-- A list of `(id, scalar)` pairs sorted ascending by the scalar (the
invariant the spatial index maintains on its four sequences). -/
def SortedBy (l : List (ι × α)) : Prop :=
  l.Sorted fun a b => a.2 ≤ b.2

/-- Number of entries whose scalar is at most `point`. -/
def cnt_le (l : List (ι × α)) (point : α) : Nat :=
  l.countP fun e => decide (e.2 ≤ point)

/-- Number of entries whose scalar is strictly less than `point`. -/
def cnt_lt (l : List (ι × α)) (point : α) : Nat :=
  l.countP fun e => decide (e.2 < point)

/-- Number of entries whose scalar equals `point`. -/
def cnt_eq (l : List (ι × α)) (point : α) : Nat :=
  l.countP fun e => decide (e.2 = point)

theorem cnt_le_le_length (l : List (ι × α)) (point : α) :
    cnt_le l point ≤ l.length :=
  List.countP_le_length _

theorem cnt_lt_le_length (l : List (ι × α)) (point : α) :
    cnt_lt l point ≤ l.length :=
  List.countP_le_length _

theorem cnt_le_eq_cnt_lt_add_cnt_eq (l : List (ι × α)) (point : α) :
    cnt_le l point = cnt_lt l point + cnt_eq l point := by
  induction l with
  | nil => simp [cnt_le, cnt_lt, cnt_eq]
  | cons a t ih =>
    simp only [cnt_le, cnt_lt, cnt_eq, List.countP_cons] at *
    rcases lt_trichotomy a.2 point with h | h | h
    · rw [if_pos (by simp [le_of_lt h]), if_pos (by simp [h]),
        if_neg (by simp [ne_of_lt h])]
      omega
    · rw [if_pos (by simp [le_of_eq h]), if_neg (by simp [h]),
        if_pos (by simp [h])]
      omega
    · rw [if_neg (by simp [not_le.mpr h]), if_neg (by simp [lt_asymm h]),
        if_neg (by simp [ne_of_gt h])]
      omega

theorem cnt_lt_le_cnt_le (l : List (ι × α)) (point : α) :
    cnt_lt l point ≤ cnt_le l point := by
  rw [cnt_le_eq_cnt_lt_add_cnt_eq]
  omega

/-- A sorted list splits at the count of a downward-closed predicate: the
prefix is exactly the entries satisfying it, the suffix exactly the rest. -/
theorem sorted_take_drop_countP (q : ι × α → Bool)
    (hq : ∀ a b : ι × α, a.2 ≤ b.2 → q b = true → q a = true)
    {l : List (ι × α)} (hl : SortedBy l) :
    l.take (l.countP q) = l.filter q ∧
      l.drop (l.countP q) = l.filter fun e => ! q e := by
  induction l with
  | nil => simp
  | cons a t ih =>
    rw [SortedBy, List.sorted_cons] at hl
    rcases ih hl.2 with ⟨iht, ihd⟩
    by_cases ha : q a = true
    · simp [List.countP_cons, ha, List.filter_cons, iht, ihd]
    · have hfa : q a = false := Bool.eq_false_iff.mpr ha
      have hallf : ∀ b ∈ t, q b = false := fun b hb =>
        Bool.eq_false_iff.mpr fun hqb => ha (hq a b (hl.1 b hb) hqb)
      have hcnt : (a :: t).countP q = 0 := by
        rw [List.countP_eq_zero]
        intro b hb
        rcases List.mem_cons.mp hb with rfl | hb'
        · simp [hfa]
        · simp [hallf b hb']
      have hfq : (a :: t).filter q = [] := by
        rw [List.filter_eq_nil_iff]
        intro b hb
        rcases List.mem_cons.mp hb with rfl | hb'
        · simp [hfa]
        · simp [hallf b hb']
      have hfnq : (a :: t).filter (fun e => ! q e) = a :: t := by
        rw [List.filter_eq_self]
        intro b hb
        rcases List.mem_cons.mp hb with rfl | hb'
        · simp [hfa]
        · simp [hallf b hb']
      rw [hcnt, hfq, hfnq]
      simp

theorem sorted_take_cnt_le {l : List (ι × α)} (hl : SortedBy l) (point : α) :
    l.take (cnt_le l point) = l.filter fun e => decide (e.2 ≤ point) :=
  (sorted_take_drop_countP _
    (fun _ _ hab hb => decide_eq_true (le_trans hab (of_decide_eq_true hb)))
    hl).1

theorem sorted_drop_cnt_le {l : List (ι × α)} (hl : SortedBy l) (point : α) :
    l.drop (cnt_le l point) = l.filter fun e => ! decide (e.2 ≤ point) :=
  (sorted_take_drop_countP _
    (fun _ _ hab hb => decide_eq_true (le_trans hab (of_decide_eq_true hb)))
    hl).2

theorem sorted_take_cnt_lt {l : List (ι × α)} (hl : SortedBy l) (point : α) :
    l.take (cnt_lt l point) = l.filter fun e => decide (e.2 < point) :=
  (sorted_take_drop_countP _
    (fun _ _ hab hb => decide_eq_true (lt_of_le_of_lt hab (of_decide_eq_true hb)))
    hl).1

theorem sorted_drop_cnt_lt {l : List (ι × α)} (hl : SortedBy l) (point : α) :
    l.drop (cnt_lt l point) = l.filter fun e => ! decide (e.2 < point) :=
  (sorted_take_drop_countP _
    (fun _ _ hab hb => decide_eq_true (lt_of_le_of_lt hab (of_decide_eq_true hb)))
    hl).2

/-- In-range reads of `scalAt` agree with `List.get`. -/
theorem scalAt_eq_get {l : List (ι × α)} {j : Nat} (hj : j < l.length) :
    scalAt l j = (l.get ⟨j, hj⟩).2 := by
  simp [scalAt, entryAt, List.getElem?_eq_getElem hj]

/-- Positions below `cnt_le` hold scalars `≤ point` and positions at or
above it hold scalars `> point` (in a sorted list). -/
theorem scalAt_le_iff {l : List (ι × α)} (hl : SortedBy l) (point : α)
    {j : Nat} (hj : j < l.length) :
    scalAt l j ≤ point ↔ j < cnt_le l point := by
  have hcle := cnt_le_le_length l point
  constructor
  · intro hle
    by_contra hge
    push_neg at hge
    have he := List.get?_eq_get (l := l) hj
    have hdropget : (l.drop (cnt_le l point)).get? (j - cnt_le l point) =
        some (l.get ⟨j, hj⟩) := by
      rw [List.get?_drop]
      rw [show cnt_le l point + (j - cnt_le l point) = j by omega]
      exact he
    have hmem : l.get ⟨j, hj⟩ ∈ l.drop (cnt_le l point) :=
      List.get?_mem hdropget
    rw [sorted_drop_cnt_le hl] at hmem
    have := (List.mem_filter.mp hmem).2
    simp only [Bool.not_eq_true', decide_eq_false_iff_not] at this
    rw [scalAt_eq_get hj] at hle
    exact this hle
  · intro hlt
    have he := List.get?_eq_get (l := l) hj
    have htakeget : (l.take (cnt_le l point)).get? j = some (l.get ⟨j, hj⟩) := by
      rw [List.get?_take hlt]
      exact he
    have hmem : l.get ⟨j, hj⟩ ∈ l.take (cnt_le l point) :=
      List.get?_mem htakeget
    rw [sorted_take_cnt_le hl] at hmem
    have := (List.mem_filter.mp hmem).2
    simp only [decide_eq_true_eq] at this
    rw [scalAt_eq_get hj]
    exact this

theorem scalAt_lt_iff {l : List (ι × α)} (hl : SortedBy l) (point : α)
    {j : Nat} (hj : j < l.length) :
    scalAt l j < point ↔ j < cnt_lt l point := by
  have hcle := cnt_lt_le_length l point
  constructor
  · intro hle
    by_contra hge
    push_neg at hge
    have he := List.get?_eq_get (l := l) hj
    have hdropget : (l.drop (cnt_lt l point)).get? (j - cnt_lt l point) =
        some (l.get ⟨j, hj⟩) := by
      rw [List.get?_drop]
      rw [show cnt_lt l point + (j - cnt_lt l point) = j by omega]
      exact he
    have hmem : l.get ⟨j, hj⟩ ∈ l.drop (cnt_lt l point) :=
      List.get?_mem hdropget
    rw [sorted_drop_cnt_lt hl] at hmem
    have := (List.mem_filter.mp hmem).2
    simp only [Bool.not_eq_true', decide_eq_false_iff_not] at this
    rw [scalAt_eq_get hj] at hle
    exact this hle
  · intro hlt
    have he := List.get?_eq_get (l := l) hj
    have htakeget : (l.take (cnt_lt l point)).get? j = some (l.get ⟨j, hj⟩) := by
      rw [List.get?_take hlt]
      exact he
    have hmem : l.get ⟨j, hj⟩ ∈ l.take (cnt_lt l point) :=
      List.get?_mem htakeget
    rw [sorted_take_cnt_lt hl] at hmem
    have := (List.mem_filter.mp hmem).2
    simp only [decide_eq_true_eq] at this
    rw [scalAt_eq_get hj]
    exact this

end Sorted

section Characterization

variable {ι α : Type} [Inhabited ι] [LinearOrder α] [Inhabited α]

/-- On a sorted list the branchless loop lands on the last index whose
scalar is `≤ point` (index `0` when there is none). -/
theorem bs_loop_sorted {l : List (ι × α)} (hl : SortedBy l) (point : α) :
    ∀ fuel size base, size ≤ fuel → 1 ≤ size → base + size ≤ l.length →
      base ≤ max (cnt_le l point) 1 - 1 →
      max (cnt_le l point) 1 - 1 < base + size →
      bs_loop l point fuel base size = max (cnt_le l point) 1 - 1 := by
  intro fuel
  induction fuel with
  | zero => intro size base hsf hs _ _ _; omega
  | succ n ih =>
    intro size base hsf hs hlen hbt htb
    by_cases h : 1 < size
    · have hhalf : 1 ≤ size / 2 := Nat.one_le_div_iff (by omega) |>.mpr (by omega)
      have hmidlt : base + size / 2 < l.length := by omega
      have hmid := scalAt_le_iff hl point hmidlt
      rw [bs_loop, if_pos h]
      dsimp only
      by_cases hgt : compare (scalAt l (base + size / 2)) point = Ordering.gt
      · have hnotle : ¬ scalAt l (base + size / 2) ≤ point :=
          not_le.mpr (compare_gt_iff_gt.mp hgt)
        have hc : cnt_le l point ≤ base + size / 2 := by
          by_contra hcon
          exact hnotle (hmid.mpr (by omega))
        rw [if_pos hgt]
        exact ih (size - size / 2) base (by omega) (by omega) (by omega)
          hbt (by omega)
      · have hle : scalAt l (base + size / 2) ≤ point := by
          rcases hcmp : compare (scalAt l (base + size / 2)) point with _ | _ | _
          · exact le_of_lt (compare_lt_iff_lt.mp hcmp)
          · exact le_of_eq (compare_eq_iff_eq.mp hcmp)
          · exact absurd hcmp hgt
        have hc : base + size / 2 < cnt_le l point := hmid.mp hle
        rw [if_neg hgt]
        exact ih (size - size / 2) (base + size / 2) (by omega) (by omega)
          (by omega) (by omega) (by omega)
    · rw [bs_loop, if_neg h]
      omega

/-- Rust `slice::binary_search_by` on a sorted list: if some entry equals the
point, it returns `Ok` of the last such index; otherwise it returns `Err`
of the number of entries strictly below the point. -/
theorem binarySearchBy_sorted {l : List (ι × α)} (hl : SortedBy l)
    (point : α) :
    binarySearchBy l point =
      if cnt_lt l point < cnt_le l point then .ok (cnt_le l point - 1)
      else .error (cnt_lt l point) := by
  have hltle := cnt_lt_le_cnt_le l point
  have hclen := cnt_le_le_length l point
  have hcltlen := cnt_lt_le_length l point
  by_cases hnil : l.length = 0
  · have h1 : cnt_le l point = 0 := by omega
    have h2 : cnt_lt l point = 0 := by omega
    simp [binarySearchBy, hnil, h1, h2]
  · have hbase := bs_loop_sorted hl point l.length l.length 0 le_rfl
      (by omega) (by omega) (by omega) (by omega)
    rw [binarySearchBy, if_neg hnil]
    dsimp only
    rw [hbase]
    set t := max (cnt_le l point) 1 - 1 with ht
    have htlen : t < l.length := by omega
    have hle_iff := scalAt_le_iff hl point htlen
    have hlt_iff := scalAt_lt_iff hl point htlen
    by_cases hfound : cnt_lt l point < cnt_le l point
    · have h1 : scalAt l t ≤ point := hle_iff.mpr (by omega)
      have h2 : ¬ scalAt l t < point := by
        intro hcon
        have := hlt_iff.mp hcon
        omega
      have heq : scalAt l t = point := le_antisymm h1 (not_lt.mp h2)
      rw [if_pos (compare_eq_iff_eq.mpr heq), if_pos hfound]
      exact congrArg Except.ok (by omega)
    · have heqc : cnt_le l point = cnt_lt l point := by omega
      by_cases hzero : cnt_le l point = 0
      · have h1 : ¬ scalAt l t ≤ point := fun hcon => by
          have := hle_iff.mp hcon
          omega
        have hgt : compare (scalAt l t) point = Ordering.gt :=
          compare_gt_iff_gt.mpr (not_le.mp h1)
        rw [hgt, if_neg (by decide), if_neg (by decide), if_neg hfound]
        exact congrArg Except.error (by omega)
      · have h1 : scalAt l t < point := hlt_iff.mpr (by omega)
        have hlt : compare (scalAt l t) point = Ordering.lt :=
          compare_lt_iff_lt.mpr h1
        rw [hlt, if_neg (by decide), if_pos (by decide), if_neg hfound]
        exact congrArg Except.error (by omega)

/-- On a sorted list `search_front` takes exactly the entries with scalar
`≤ point`: front ties are all included. -/
theorem front_index_sorted {l : List (ι × α)} (hl : SortedBy l) (point : α) :
    front_index l point = cnt_le l point := by
  have hltle := cnt_lt_le_cnt_le l point
  unfold front_index
  rw [binarySearchBy_sorted hl point]
  by_cases h : cnt_lt l point < cnt_le l point
  · rw [if_pos h]
    dsimp only
    omega
  · rw [if_neg h]
    dsimp only
    omega

/-- On a sorted list the index taken by `search_behind` is the last
point-equal index when a tie exists, else the count of smaller entries;
with at most one point-equal entry both cases coincide with `cnt_lt`. -/
theorem behind_index_sorted {l : List (ι × α)} (hl : SortedBy l) (point : α)
    (hone : cnt_eq l point ≤ 1) :
    behind_index l point = cnt_lt l point := by
  have hsum := cnt_le_eq_cnt_lt_add_cnt_eq l point
  unfold behind_index
  rw [binarySearchBy_sorted hl point]
  by_cases h : cnt_lt l point < cnt_le l point
  · rw [if_pos h]
    dsimp only
    omega
  · rw [if_neg h]

/-- The insertion index of `HitEngine::insert` sits between the strict and
weak counts on a sorted list. -/
theorem determine_insertion_point_between {l : List (ι × α)}
    (hl : SortedBy l) (point : α) :
    cnt_lt l point ≤ determine_insertion_point l point ∧
      determine_insertion_point l point ≤ cnt_le l point := by
  unfold determine_insertion_point
  rw [binarySearchBy_sorted hl point]
  by_cases h : cnt_lt l point < cnt_le l point
  · rw [if_pos h]
    dsimp only
    constructor <;> omega
  · rw [if_neg h]
    dsimp only
    have := cnt_lt_le_cnt_le l point
    constructor <;> omega

end Characterization

section Membership

variable {ι α : Type} [Inhabited ι] [LinearOrder α] [Inhabited α]

/-- Rust `search_front` on a sorted list returns exactly the ids of entries with
scalar `≤ point` — all ties at the query value included. -/
theorem mem_search_front {l : List (ι × α)} (hl : SortedBy l) (point : α)
    (a : ι) :
    a ∈ search_front l point ↔ ∃ e ∈ l, e.1 = a ∧ e.2 ≤ point := by
  rw [search_front, front_index_sorted hl, collect, sorted_take_cnt_le hl]
  simp only [List.mem_map, List.mem_filter, decide_eq_true_eq]
  constructor
  · rintro ⟨e, ⟨he, hle⟩, rfl⟩
    exact ⟨e, he, rfl, hle⟩
  · rintro ⟨e, he, rfl, hle⟩
    exact ⟨e, ⟨he, hle⟩, rfl⟩

/-- Rust `search_behind` on a sorted list with at most one entry tied at the
query value returns exactly the ids of entries with scalar `≥ point`. -/
theorem mem_search_behind {l : List (ι × α)} (hl : SortedBy l) (point : α)
    (hone : cnt_eq l point ≤ 1) (a : ι) :
    a ∈ search_behind l point ↔ ∃ e ∈ l, e.1 = a ∧ point ≤ e.2 := by
  rw [search_behind, behind_index_sorted hl point hone, collect,
    sorted_drop_cnt_lt hl]
  simp only [List.mem_map, List.mem_filter, Bool.not_eq_true',
    decide_eq_false_iff_not, not_lt]
  constructor
  · rintro ⟨e, ⟨he, hge⟩, rfl⟩
    exact ⟨e, he, rfl, hge⟩
  · rintro ⟨e, he, rfl, hge⟩
    exact ⟨e, ⟨he, hge⟩, rfl⟩

end Membership

section Insertion

variable {ι α : Type} [Inhabited ι] [LinearOrder α] [Inhabited α]

/-- Helper: `List.insertIdx` at an in-range position splits into take/cons/drop. -/
theorem insertIdx_eq_take_cons_drop {β : Type} (x : β) :
    ∀ (n : Nat) (l : List β), n ≤ l.length →
      l.insertIdx n x = l.take n ++ x :: l.drop n := by
  intro n
  induction n with
  | zero =>
    intro l _
    simp
  | succ m ih =>
    intro l h
    cases l with
    | nil => simp at h
    | cons b t =>
      simp only [List.insertIdx_succ_cons, List.take_succ_cons,
        List.drop_succ_cons, List.cons_append, List.cons.injEq, true_and]
      exact ih t (by simpa using h)

/-- Inserting at an in-range position permutes with consing. -/
theorem insertIdx_perm {β : Type} (x : β) {n : Nat} {l : List β}
    (h : n ≤ l.length) : (l.insertIdx n x).Perm (x :: l) := by
  rw [insertIdx_eq_take_cons_drop x n l h]
  have hmid : (l.take n ++ x :: l.drop n).Perm (x :: (l.take n ++ l.drop n)) :=
    List.perm_middle
  rwa [List.take_append_drop] at hmid

/-- Entries in the prefix up to any position `≤ cnt_le` have scalar
`≤ point`. -/
theorem mem_take_scal_le {l : List (ι × α)} (hl : SortedBy l) {point : α}
    {k : Nat} (hk : k ≤ cnt_le l point) {x : ι × α} (hx : x ∈ l.take k) :
    x.2 ≤ point := by
  have heq : l.take k = (l.take (cnt_le l point)).take k := by
    rw [List.take_take, min_eq_left hk]
  rw [heq, sorted_take_cnt_le hl] at hx
  have := (List.mem_filter.mp (List.take_subset _ _ hx)).2
  simpa using this

/-- Entries in the suffix from any position `≥ cnt_lt` have scalar
`≥ point`. -/
theorem mem_drop_scal_ge {l : List (ι × α)} (hl : SortedBy l) {point : α}
    {k : Nat} (hk : cnt_lt l point ≤ k) {x : ι × α} (hx : x ∈ l.drop k) :
    point ≤ x.2 := by
  have heq : l.drop k = (l.drop (cnt_lt l point)).drop (k - cnt_lt l point) := by
    rw [List.drop_drop]
    congr 1
    omega
  rw [heq, sorted_drop_cnt_lt hl] at hx
  have := (List.mem_filter.mp (List.drop_subset _ _ hx)).2
  simp only [Bool.not_eq_true', decide_eq_false_iff_not, not_lt] at this
  exact this

/-- Inserting `(a, point)` anywhere between the strict and weak counts
keeps the list sorted. -/
theorem sortedBy_insertIdx_between {l : List (ι × α)} (hl : SortedBy l)
    (point : α) (a : ι) {k : Nat} (h1 : cnt_lt l point ≤ k)
    (h2 : k ≤ cnt_le l point) :
    SortedBy (l.insertIdx k (a, point)) := by
  have hk_len : k ≤ l.length := le_trans h2 (cnt_le_le_length l point)
  rw [SortedBy, insertIdx_eq_take_cons_drop _ k l hk_len]
  rw [List.Sorted, List.pairwise_append]
  refine ⟨List.Pairwise.sublist (List.take_sublist _ _) hl, ?_, ?_⟩
  · rw [List.pairwise_cons]
    exact ⟨fun y hy => mem_drop_scal_ge hl h1 hy,
      List.Pairwise.sublist (List.drop_sublist _ _) hl⟩
  · intro x hx y hy
    rcases List.mem_cons.mp hy with rfl | hy'
    · exact mem_take_scal_le hl h2 hx
    · exact le_trans (mem_take_scal_le hl h2 hx) (mem_drop_scal_ge hl h1 hy')

/-- Inserting at `determine_insertion_point` preserves sortedness (the
`HitEngine::insert` case). -/
theorem sortedBy_insert_dip {l : List (ι × α)} (hl : SortedBy l) (point : α)
    (a : ι) :
    SortedBy (l.insertIdx (determine_insertion_point l point) (a, point)) := by
  have h := determine_insertion_point_between hl point
  exact sortedBy_insertIdx_between hl point a h.1 h.2

end Insertion

section Engine

variable {α : Type} [LinearOrder α] [Inhabited α]

/-- Rust `AbsPoint` (a 2D pixel-space coordinate); the wrapped
`PhysicalPosition` is a pair of scalars. -/
structure AbsPt (α : Type) where
  x : α
  y : α
  deriving DecidableEq

/-- Rust `BoundingBox { id, tl, br }` from `hit_engine/mod.rs`; `Uuid`
identifiers are modelled as an opaque `Nat` token. -/
structure BoundingBox (α : Type) where
  id : Nat
  tl : AbsPt α
  br : AbsPt α
  deriving DecidableEq

/-- The spatial index: four sequences of `(id, scalar)` pairs. -/
structure HitEngine (α : Type) where
  x_start : List (Nat × α)
  x_end : List (Nat × α)
  y_start : List (Nat × α)
  y_end : List (Nat × α)
  deriving DecidableEq

/-- Rust `HitEngine::default()`: four empty sequences. -/
def HitEngine.empty : HitEngine α :=
  ⟨[], [], [], []⟩

/-- Rust `HitEngine::insert`: destructure the box into its four scalars, find
each sorted insertion position via binary search, and insert the
`(id, scalar)` pair there. -/
def HitEngine.insert (e : HitEngine α) (b : BoundingBox α) : HitEngine α :=
  ⟨e.x_start.insertIdx (determine_insertion_point e.x_start b.tl.x) (b.id, b.tl.x),
    e.x_end.insertIdx (determine_insertion_point e.x_end b.br.x) (b.id, b.br.x),
    e.y_start.insertIdx (determine_insertion_point e.y_start b.tl.y) (b.id, b.tl.y),
    e.y_end.insertIdx (determine_insertion_point e.y_end b.br.y) (b.id, b.br.y)⟩

/-- Rust `HitEngine::hit_search`: the four per-axis candidate sets, then the ids
of the `x_start` set that are members of the other three. -/
def HitEngine.hit_search (e : HitEngine α) (p : AbsPt α) : List Nat :=
  let x_start_hit_ids := search_front e.x_start p.x
  let x_end_hit_ids := search_behind e.x_end p.x
  let y_start_hit_ids := search_front e.y_start p.y
  let y_end_hit_ids := search_behind e.y_end p.y
  x_start_hit_ids.filter fun i =>
    x_end_hit_ids.contains i && y_start_hit_ids.contains i &&
      y_end_hit_ids.contains i

/-- Rust `HitEngine::clear`: empty all four sequences. -/
def HitEngine.clear (_e : HitEngine α) : HitEngine α :=
  ⟨[], [], [], []⟩

/-- The spec-side state invariant: each of the four sequences is sorted
ascending by its scalar. -/
def HitEngine.SortedLists (e : HitEngine α) : Prop :=
  SortedBy e.x_start ∧ SortedBy e.x_end ∧ SortedBy e.y_start ∧
    SortedBy e.y_end

/-- Engine states reachable from the empty engine by inserts and clears. -/
inductive HitEngine.Reachable : HitEngine α → Prop where
  | empty : HitEngine.Reachable HitEngine.empty
  | insert (e : HitEngine α) (b : BoundingBox α) :
      HitEngine.Reachable e → HitEngine.Reachable (e.insert b)
  | clear (e : HitEngine α) :
      HitEngine.Reachable e → HitEngine.Reachable e.clear

theorem sortedLists_empty : (HitEngine.empty : HitEngine α).SortedLists := by
  refine ⟨?_, ?_, ?_, ?_⟩ <;> exact List.sorted_nil

theorem sortedLists_insert {e : HitEngine α} (he : e.SortedLists)
    (b : BoundingBox α) : (e.insert b).SortedLists :=
  ⟨sortedBy_insert_dip he.1 b.tl.x b.id,
    sortedBy_insert_dip he.2.1 b.br.x b.id,
    sortedBy_insert_dip he.2.2.1 b.tl.y b.id,
    sortedBy_insert_dip he.2.2.2 b.br.y b.id⟩

/-- Build an engine by inserting a list of boxes in order (the only way
engines arise in the claims). -/
def engine_of_boxes (bs : List (BoundingBox α)) : HitEngine α :=
  bs.foldl HitEngine.insert HitEngine.empty

/-- The four scalar projections a box contributes to the engine. -/
def proj_xs (b : BoundingBox α) : Nat × α := (b.id, b.tl.x)

def proj_xe (b : BoundingBox α) : Nat × α := (b.id, b.br.x)

def proj_ys (b : BoundingBox α) : Nat × α := (b.id, b.tl.y)

def proj_ye (b : BoundingBox α) : Nat × α := (b.id, b.br.y)

theorem step_perm {β : Type} {x : β} {X X' T R : List β}
    (h1 : R.Perm (X' ++ T)) (h2 : X'.Perm (x :: X)) :
    R.Perm (X ++ x :: T) := by
  refine h1.trans ?_
  refine (h2.append_right T).trans ?_
  simpa using List.perm_middle.symm

theorem foldl_insert_sorted_perm (bs : List (BoundingBox α)) :
    ∀ e : HitEngine α, e.SortedLists →
      (bs.foldl HitEngine.insert e).SortedLists ∧
        ((bs.foldl HitEngine.insert e).x_start).Perm
          (e.x_start ++ bs.map proj_xs) ∧
        ((bs.foldl HitEngine.insert e).x_end).Perm
          (e.x_end ++ bs.map proj_xe) ∧
        ((bs.foldl HitEngine.insert e).y_start).Perm
          (e.y_start ++ bs.map proj_ys) ∧
        ((bs.foldl HitEngine.insert e).y_end).Perm
          (e.y_end ++ bs.map proj_ye) := by
  induction bs with
  | nil =>
    intro e he
    simp only [List.foldl_nil, List.map_nil, List.append_nil]
    exact ⟨he, List.Perm.refl _, List.Perm.refl _, List.Perm.refl _,
      List.Perm.refl _⟩
  | cons b t ih =>
    intro e he
    have hstep : (e.insert b).SortedLists := sortedLists_insert he b
    have hrec := ih (e.insert b) hstep
    simp only [List.foldl_cons, List.map_cons]
    exact ⟨hrec.1,
      step_perm hrec.2.1
        (insertIdx_perm _ (determine_insertion_point_le_length _ _)),
      step_perm hrec.2.2.1
        (insertIdx_perm _ (determine_insertion_point_le_length _ _)),
      step_perm hrec.2.2.2.1
        (insertIdx_perm _ (determine_insertion_point_le_length _ _)),
      step_perm hrec.2.2.2.2
        (insertIdx_perm _ (determine_insertion_point_le_length _ _))⟩

theorem engine_of_boxes_sorted (bs : List (BoundingBox α)) :
    (engine_of_boxes bs).SortedLists :=
  (foldl_insert_sorted_perm bs HitEngine.empty sortedLists_empty).1

theorem engine_of_boxes_perm (bs : List (BoundingBox α)) :
    ((engine_of_boxes bs).x_start).Perm (bs.map proj_xs) ∧
      ((engine_of_boxes bs).x_end).Perm (bs.map proj_xe) ∧
      ((engine_of_boxes bs).y_start).Perm (bs.map proj_ys) ∧
      ((engine_of_boxes bs).y_end).Perm (bs.map proj_ye) := by
  have h := foldl_insert_sorted_perm bs HitEngine.empty sortedLists_empty
  simpa [engine_of_boxes, HitEngine.empty] using
    ⟨h.2.1, h.2.2.1, h.2.2.2.1, h.2.2.2.2⟩

/-- Membership in `hit_search` unfolds to the four per-axis memberships. -/
theorem mem_hit_search (e : HitEngine α) (p : AbsPt α) (a : Nat) :
    a ∈ e.hit_search p ↔
      a ∈ search_front e.x_start p.x ∧ a ∈ search_behind e.x_end p.x ∧
        a ∈ search_front e.y_start p.y ∧ a ∈ search_behind e.y_end p.y := by
  rw [HitEngine.hit_search]
  rw [List.mem_filter]
  simp [and_assoc]

end Engine

section ClaimOne

variable {α : Type} [LinearOrder α] [Inhabited α]

/-- The spec-side containment predicate: the box contains the point with
inclusive boundaries on both axes
(`x_start <= x <= x_end` and `y_start <= y <= y_end`). -/
def spec_contains (b : BoundingBox α) (p : AbsPt α) : Prop :=
  b.tl.x ≤ p.x ∧ p.x ≤ b.br.x ∧ b.tl.y ≤ p.y ∧ p.y ≤ b.br.y

instance (b : BoundingBox α) (p : AbsPt α) : Decidable (spec_contains b p) := by
  unfold spec_contains
  infer_instance

/-- Transport an entry-wise existential along the permutation between an
engine list and the projections of the inserted boxes. -/
theorem exists_entry_iff_box (bs : List (BoundingBox α))
    (proj : BoundingBox α → Nat × α) (X : List (Nat × α))
    (hperm : X.Perm (bs.map proj)) (a : Nat) (P : α → Prop) :
    (∃ e ∈ X, e.1 = a ∧ P e.2) ↔
      ∃ b ∈ bs, (proj b).1 = a ∧ P ((proj b).2) := by
  constructor
  · rintro ⟨e, he, h1, h2⟩
    obtain ⟨b, hb, rfl⟩ := List.mem_map.mp (hperm.subset he)
    exact ⟨b, hb, h1, h2⟩
  · rintro ⟨b, hb, h1, h2⟩
    exact ⟨proj b, hperm.symm.subset (List.mem_map_of_mem _ hb), h1, h2⟩

/-- C1, amended: for boxes with NaN-free coordinates (modelled by a total
scalar order), well-formed extents and pairwise distinct identifiers,
`hit_search` returns exactly the identifiers of the boxes containing the
query point with inclusive boundaries, provided additionally that at most
one inserted box has `x_end` equal to the query `x` and at most one has
`y_end` equal to the query `y`.  (Ties in the front lists are all included;
the extra hypotheses are forced by the tie handling of the end lists, see
the counterexample.) -/
theorem hit_search_exact (bs : List (BoundingBox α)) (p : AbsPt α)
    (hwf : ∀ b ∈ bs, b.tl.x ≤ b.br.x ∧ b.tl.y ≤ b.br.y)
    (hid : (bs.map BoundingBox.id).Nodup)
    (hxe : bs.countP (fun b => decide (b.br.x = p.x)) ≤ 1)
    (hye : bs.countP (fun b => decide (b.br.y = p.y)) ≤ 1)
    (a : Nat) :
    a ∈ (engine_of_boxes bs).hit_search p ↔
      ∃ b ∈ bs, b.id = a ∧ spec_contains b p := by
  obtain ⟨hs1, hs2, hs3, hs4⟩ := engine_of_boxes_sorted bs
  obtain ⟨hp1, hp2, hp3, hp4⟩ := engine_of_boxes_perm bs
  have hcx : cnt_eq (engine_of_boxes bs).x_end p.x ≤ 1 := by
    rw [cnt_eq, hp2.countP_eq, List.countP_map]
    exact hxe
  have hcy : cnt_eq (engine_of_boxes bs).y_end p.y ≤ 1 := by
    rw [cnt_eq, hp4.countP_eq, List.countP_map]
    exact hye
  rw [mem_hit_search, mem_search_front hs1, mem_search_behind hs2 p.x hcx a,
    mem_search_front hs3, mem_search_behind hs4 p.y hcy a,
    exists_entry_iff_box bs proj_xs _ hp1 a fun s => s ≤ p.x,
    exists_entry_iff_box bs proj_xe _ hp2 a fun s => p.x ≤ s,
    exists_entry_iff_box bs proj_ys _ hp3 a fun s => s ≤ p.y,
    exists_entry_iff_box bs proj_ye _ hp4 a fun s => p.y ≤ s]
  have hinj := List.inj_on_of_nodup_map hid
  constructor
  · rintro ⟨⟨b1, hb1, hid1, h1⟩, ⟨b2, hb2, hid2, h2⟩, ⟨b3, hb3, hid3, h3⟩,
      ⟨b4, hb4, hid4, h4⟩⟩
    have e2 : b2 = b1 := hinj hb2 hb1 (by rw [show b2.id = a from hid2,
      show b1.id = a from hid1])
    have e3 : b3 = b1 := hinj hb3 hb1 (by rw [show b3.id = a from hid3,
      show b1.id = a from hid1])
    have e4 : b4 = b1 := hinj hb4 hb1 (by rw [show b4.id = a from hid4,
      show b1.id = a from hid1])
    exact ⟨b1, hb1, hid1, h1, e2 ▸ h2, e3 ▸ h3, e4 ▸ h4⟩
  · rintro ⟨b, hb, hida, c1, c2, c3, c4⟩
    exact ⟨⟨b, hb, hida, c1⟩, ⟨b, hb, hida, c2⟩, ⟨b, hb, hida, c3⟩,
      ⟨b, hb, hida, c4⟩⟩

/-- Two well-formed boxes with distinct ids and identical, NaN-free extents
used as the tie counterexample. -/
def boxes_ce : List (BoundingBox ℤ) :=
  [⟨0, ⟨0, 0⟩, ⟨10, 10⟩⟩, ⟨1, ⟨0, 0⟩, ⟨10, 10⟩⟩]

/-- C1, counterexample: both boxes of `boxes_ce` contain the query point
`(10, 5)` with inclusive boundaries (and all hypotheses of the claim hold:
distinct ids, well-formed extents, NaN-free scalars), yet `hit_search`
misses the identifier `1` because the two `x_end` entries tie at `10` and
the end-list search keeps only the entry found by the binary search. -/
theorem hit_search_misses_tied_end_boundary :
    ((boxes_ce.map BoundingBox.id).Nodup ∧
      (∀ b ∈ boxes_ce, b.tl.x ≤ b.br.x ∧ b.tl.y ≤ b.br.y) ∧
      (∃ b ∈ boxes_ce, b.id = 1 ∧ spec_contains b ⟨10, 5⟩)) ∧
      1 ∉ (engine_of_boxes boxes_ce).hit_search ⟨10, 5⟩ := by
  decide

/-- C1, witness for the amended theorem at a concrete input. -/
theorem hit_search_exact_witness :
    3 ∈ (engine_of_boxes [⟨3, ⟨1, 1⟩, ⟨4, 4⟩⟩, ⟨7, ⟨2, 0⟩, ⟨3, 3⟩⟩]).hit_search
        (⟨2, 2⟩ : AbsPt ℤ) ↔
      ∃ b ∈ [(⟨3, ⟨1, 1⟩, ⟨4, 4⟩⟩ : BoundingBox ℤ), ⟨7, ⟨2, 0⟩, ⟨3, 3⟩⟩],
        b.id = 3 ∧ spec_contains b ⟨2, 2⟩ :=
  hit_search_exact [⟨3, ⟨1, 1⟩, ⟨4, 4⟩⟩, ⟨7, ⟨2, 0⟩, ⟨3, 3⟩⟩] ⟨2, 2⟩
    (by decide) (by decide) (by decide) (by decide) 3

end ClaimOne

section ClaimEight

variable {α : Type} [LinearOrder α] [Inhabited α]

/-- C8: every engine state reachable from the empty engine by inserts and
clears has its four sequences sorted ascending by scalar, and the
invariant is preserved by every insert. -/
theorem reachable_hit_engine_sorted (e : HitEngine α)
    (h : e.Reachable) :
    e.SortedLists ∧ ∀ b : BoundingBox α, (e.insert b).SortedLists := by
  have hs : e.SortedLists := by
    induction h with
    | empty => exact sortedLists_empty
    | insert e b _ ih => exact sortedLists_insert ih b
    | clear e _ _ => exact sortedLists_empty
  exact ⟨hs, fun b => sortedLists_insert hs b⟩

/-- C8, witness: the invariant holds of a concrete reachable state. -/
theorem reachable_hit_engine_sorted_witness :
    ((HitEngine.empty.clear.insert ⟨0, ⟨1, 1⟩, ⟨10, 10⟩⟩ : HitEngine ℤ).SortedLists ∧
      ∀ b : BoundingBox ℤ,
        ((HitEngine.empty.clear.insert ⟨0, ⟨1, 1⟩, ⟨10, 10⟩⟩).insert b).SortedLists) :=
  reachable_hit_engine_sorted _
    (HitEngine.Reachable.insert _ _
      (HitEngine.Reachable.clear _ HitEngine.Reachable.empty))

end ClaimEight

section F32Model

/-- A 32-bit float as its bit pattern.  All `f32` values, NaN payloads and
signed zeros included, are distinct bit patterns below `2 ^ 32`. -/
structure F32 where
  bits : Nat
  isLt : bits < 2 ^ 32

/-- The sort key realised by `f32::total_cmp`: the sign-magnitude bit
transform (flip all bits of negative values, set the sign bit of
non-negative ones) that makes unsigned comparison of the transformed bits
coincide with the IEEE total order `-qNaN < -inf < ... < -0 < +0 < ... <
+inf < +qNaN`. -/
def F32.key (a : F32) : Nat :=
  if a.bits < 2 ^ 31 then 2 ^ 31 + a.bits else 2 ^ 32 - 1 - a.bits

theorem F32.key_injective : Function.Injective F32.key := by
  intro a b hab
  have ha := a.isLt
  have hb := b.isLt
  rcases a with ⟨abits, _⟩
  rcases b with ⟨bbits, _⟩
  simp only [F32.key] at hab
  congr 1
  split at hab <;> split at hab <;> omega

instance : LinearOrder F32 :=
  LinearOrder.lift' F32.key F32.key_injective

instance : Inhabited F32 :=
  ⟨⟨0, by norm_num⟩⟩

/-- The canonical quiet-NaN bit pattern `0x7FC00000`. -/
def F32.nan : F32 :=
  ⟨0x7FC00000, by norm_num⟩

/-- C10: over arbitrary `f32` bit patterns — NaN and infinities included —
`HitEngine::insert` and `HitEngine::hit_search` are total and never panic:
`total_cmp` compares every pair of patterns (here, reflexively comparing
NaN to itself yields `eq`), each `Vec::insert` index is at most the list
length (its panic condition), each slice bound taken by the searches is at
most the list length (their panic conditions), and insertion always grows
each sequence by exactly one entry. -/
theorem hit_engine_total_no_panic :
    (∀ (e : HitEngine F32) (b : BoundingBox F32),
      determine_insertion_point e.x_start b.tl.x ≤ e.x_start.length ∧
        determine_insertion_point e.x_end b.br.x ≤ e.x_end.length ∧
        determine_insertion_point e.y_start b.tl.y ≤ e.y_start.length ∧
        determine_insertion_point e.y_end b.br.y ≤ e.y_end.length ∧
        (e.insert b).x_start.length = e.x_start.length + 1 ∧
        (e.insert b).x_end.length = e.x_end.length + 1 ∧
        (e.insert b).y_start.length = e.y_start.length + 1 ∧
        (e.insert b).y_end.length = e.y_end.length + 1) ∧
      (∀ (e : HitEngine F32) (p : AbsPt F32),
        front_index e.x_start p.x ≤ e.x_start.length ∧
          behind_index e.x_end p.x ≤ e.x_end.length ∧
          front_index e.y_start p.y ≤ e.y_start.length ∧
          behind_index e.y_end p.y ≤ e.y_end.length) ∧
      compare F32.nan F32.nan = Ordering.eq := by
  refine ⟨fun e b => ?_, fun e p => ?_, compare_eq_iff_eq.mpr rfl⟩
  · refine ⟨determine_insertion_point_le_length _ _,
      determine_insertion_point_le_length _ _,
      determine_insertion_point_le_length _ _,
      determine_insertion_point_le_length _ _, ?_, ?_, ?_, ?_⟩ <;>
      exact List.length_insertIdx _ _ (determine_insertion_point_le_length _ _)
  · exact ⟨front_index_le_length _ _, behind_index_le_length _ _,
      front_index_le_length _ _, behind_index_le_length _ _⟩

end F32Model

section LayerStore

variable {ο : Type} [Inhabited ο]

/-- Rust `RenderingEngine::add_object`: binary search over the layer numbers of
the shape list (`Ok(index) => index + 1, Err(index) => index`, the same
index expression as `search_front`) and insertion of `(object, layer)`
there. -/
def add_object (shapes : List (ο × Nat)) (layer : Nat) (object : ο) :
    List (ο × Nat) :=
  shapes.insertIdx (front_index shapes layer) (object, layer)

/-- The shape list built by a sequence of `add_object` calls, each request
carrying the layer cursor current at its submission. -/
def add_objects (reqs : List (ο × Nat)) : List (ο × Nat) :=
  reqs.foldl (fun shapes r => add_object shapes r.2 r.1) []

/-- On a sorted shape list, `add_object` splits the list at the weak count
of the layer: all entries of layer `≤ layer` keep their order before the
new entry, the rest after. -/
theorem add_object_eq_filter_split {shapes : List (ο × Nat)}
    (hs : SortedBy shapes) (layer : Nat) (object : ο) :
    add_object shapes layer object =
      (shapes.filter fun e => decide (e.2 ≤ layer)) ++
        (object, layer) :: (shapes.filter fun e => ! decide (e.2 ≤ layer)) := by
  rw [add_object, front_index_sorted hs,
    insertIdx_eq_take_cons_drop _ _ _ (cnt_le_le_length shapes layer),
    sorted_take_cnt_le hs, sorted_drop_cnt_le hs]

theorem add_object_sorted {shapes : List (ο × Nat)} (hs : SortedBy shapes)
    (layer : Nat) (object : ο) : SortedBy (add_object shapes layer object) := by
  rw [add_object, front_index_sorted hs]
  exact sortedBy_insertIdx_between hs layer object
    (cnt_lt_le_cnt_le shapes layer) le_rfl

/-- Rust `add_object` preserves the per-layer subsequences: the new object is
appended to the subsequence of its own layer, all other layers are untouched. -/
theorem add_object_filter_layer {shapes : List (ο × Nat)}
    (hs : SortedBy shapes) (layer : Nat) (object : ο) (L : Nat) :
    (add_object shapes layer object).filter (fun e => decide (e.2 = L)) =
      if L = layer then
        (shapes.filter fun e => decide (e.2 = L)) ++ [(object, layer)]
      else shapes.filter fun e => decide (e.2 = L) := by
  rw [add_object_eq_filter_split hs, List.filter_append, List.filter_cons,
    List.filter_filter, List.filter_filter]
  by_cases hLl : L ≤ layer
  · have h1 : (shapes.filter fun e =>
        decide (e.2 = L) && decide (e.2 ≤ layer)) =
        shapes.filter fun e => decide (e.2 = L) := by
      apply List.filter_congr
      intro e _
      by_cases he : e.2 = L
      · simp [he, hLl]
      · simp [he]
    have h2 : (shapes.filter fun e =>
        decide (e.2 = L) && ! decide (e.2 ≤ layer)) = [] := by
      rw [List.filter_eq_nil_iff]
      intro e _
      by_cases he : e.2 = L
      · simp [he, hLl]
      · simp [he]
    rw [h1, h2]
    by_cases hL : L = layer
    · rw [if_pos (by simpa using hL.symm), if_pos hL]
    · rw [if_neg (by simpa using fun h : layer = L => hL h.symm), if_neg hL]
      simp
  · have hgt : layer < L := not_le.mp hLl
    have h1 : (shapes.filter fun e =>
        decide (e.2 = L) && decide (e.2 ≤ layer)) = [] := by
      rw [List.filter_eq_nil_iff]
      intro e _
      by_cases he : e.2 = L
      · simp [he, hLl]
      · simp [he]
    have h2 : (shapes.filter fun e =>
        decide (e.2 = L) && ! decide (e.2 ≤ layer)) =
        shapes.filter fun e => decide (e.2 = L) := by
      apply List.filter_congr
      intro e _
      by_cases he : e.2 = L
      · simp [he, hLl]
      · simp [he]
    rw [h1, h2,
      if_neg (by simpa using fun h : layer = L => absurd h (by omega)),
      if_neg (by omega)]
    simp

theorem add_objects_sorted_stable (reqs : List (ο × Nat)) :
    SortedBy (add_objects reqs) ∧
      ∀ L, (add_objects reqs).filter (fun e => decide (e.2 = L)) =
        reqs.filter fun e => decide (e.2 = L) := by
  induction reqs using List.reverseRecOn with
  | nil => exact ⟨List.sorted_nil, fun L => rfl⟩
  | append_singleton rs r ih =>
    have hfold : add_objects (rs ++ [r]) =
        add_object (add_objects rs) r.2 r.1 := by
      rw [add_objects, List.foldl_append]
      rfl
    refine ⟨?_, fun L => ?_⟩
    · rw [hfold]
      exact add_object_sorted ih.1 r.2 r.1
    · rw [hfold, add_object_filter_layer ih.1, List.filter_append, ih.2 L]
      by_cases hL : L = r.2
      · rw [if_pos hL]
        simp [List.filter_cons, hL]
      · rw [if_neg hL]
        have hne : ¬ (r.2 = L) := fun h => hL h.symm
        simp [List.filter_cons, hne]

/-- C4: every sequence of `add_object` calls yields a shape list sorted
ascending by layer with submission order preserved inside each layer
(equal-layer insertions land after the last entry of that layer), and in
particular objects added at layers 0, 2, 1, 0 iterate as first layer-0
object, second layer-0 object, layer-1 object, layer-2 object. -/
theorem add_object_layer_ordering (reqs : List (ο × Nat)) :
    SortedBy (add_objects reqs) ∧
      (∀ L, (add_objects reqs).filter (fun e => decide (e.2 = L)) =
        reqs.filter fun e => decide (e.2 = L)) ∧
      add_objects [((10 : Nat), 0), (20, 2), (30, 1), (40, 0)] =
        [(10, 0), (40, 0), (30, 1), (20, 2)] := by
  obtain ⟨h1, h2⟩ := add_objects_sorted_stable reqs
  exact ⟨h1, h2, by decide⟩

end LayerStore

section LayerCursor

/-- Rust `RenderingEngine::push_layer`: `usize::checked_add(1)` followed by
`expect` — `none` models the panic on overflow of the 64-bit counter. -/
def push_layer (layer : Nat) : Option Nat :=
  if layer + 1 < 2 ^ 64 then some (layer + 1) else none

/-- Rust `RenderingEngine::pop_layer`: `usize::saturating_sub(1)`, which on
naturals is plain truncated subtraction. -/
def pop_layer (layer : Nat) : Nat :=
  layer - 1

/-- C7: `pop_layer` saturates at 0 (popping at 0 stays 0, never negative),
and `push_layer` increments by one except at the maximum representable
`usize`, where it fails loudly (`none`, the `expect` panic) instead of
wrapping. -/
theorem push_pop_layer_spec :
    pop_layer 0 = 0 ∧ (∀ layer : Nat, pop_layer layer = layer - 1) ∧
      (∀ layer : Nat, layer < 2 ^ 64 - 1 →
        push_layer layer = some (layer + 1)) ∧
      push_layer (2 ^ 64 - 1) = none := by
  refine ⟨rfl, fun layer => rfl, fun layer h => ?_, ?_⟩
  · rw [push_layer, if_pos (by omega)]
  · rw [push_layer, if_neg (by norm_num)]

/-- C7, witness. -/
theorem push_pop_layer_spec_witness : push_layer 5 = some 6 :=
  push_pop_layer_spec.2.2.1 5 (by norm_num)

end LayerCursor

section CoordinateConverter

/-- Rust `abs_to_scaled_1d(a, length) = (a / length as f32) * 2. - 1.` from
`primitives/mod.rs`, with exact rational arithmetic standing in for the
`f32` operations. -/
def abs_to_scaled_1d (a : ℚ) (length : Nat) : ℚ :=
  a / (length : ℚ) * 2 - 1

/-- Rust `scaled_to_abs_1d(a, length) = ((a + 1.0) / 2.0) * length as f32`. -/
def scaled_to_abs_1d (a : ℚ) (length : Nat) : ℚ :=
  (a + 1) / 2 * (length : ℚ)

/-- Rust `ScaledPoint`: a normalized-device-space coordinate pair. -/
structure ScaledPt where
  x : ℚ
  y : ℚ
  deriving DecidableEq

/-- Rust `AbsPoint::to_scaled`: per-axis 1D conversion, negating y. -/
def to_scaled (p : AbsPt ℚ) (w h : Nat) : ScaledPt :=
  ⟨abs_to_scaled_1d p.x w, -(abs_to_scaled_1d p.y h)⟩

/-- Rust `ScaledPoint::to_abs`: per-axis 1D conversion, negating y before
converting. -/
def to_abs (q : ScaledPt) (w h : Nat) : AbsPt ℚ :=
  ⟨scaled_to_abs_1d q.x w, scaled_to_abs_1d (-q.y) h⟩

/-- C5: for every positive viewport size the two conversions are mutually
inverse (exactly, in the idealized real-number model of the float
arithmetic), and the two y negations cancel. -/
theorem coordinate_round_trip (w h : Nat) (hw : 0 < w) (hh : 0 < h)
    (p : AbsPt ℚ) (q : ScaledPt) :
    to_abs (to_scaled p w h) w h = p ∧ to_scaled (to_abs q w h) w h = q := by
  have hw' : (w : ℚ) ≠ 0 := Nat.cast_ne_zero.mpr (by omega)
  have hh' : (h : ℚ) ≠ 0 := Nat.cast_ne_zero.mpr (by omega)
  constructor
  · obtain ⟨px, py⟩ := p
    simp only [to_abs, to_scaled, abs_to_scaled_1d, scaled_to_abs_1d,
      AbsPt.mk.injEq]
    constructor <;> (field_simp; ring)
  · obtain ⟨qx, qy⟩ := q
    simp only [to_abs, to_scaled, abs_to_scaled_1d, scaled_to_abs_1d,
      ScaledPt.mk.injEq]
    constructor <;> (field_simp; ring)

/-- C5, witness. -/
theorem coordinate_round_trip_witness :
    to_abs (to_scaled ⟨3, 7⟩ 4 5) 4 5 = (⟨3, 7⟩ : AbsPt ℚ) ∧
      to_scaled (to_abs ⟨1 / 2, 1 / 3⟩ 4 5) 4 5 = (⟨1 / 2, 1 / 3⟩ : ScaledPt) :=
  coordinate_round_trip 4 5 (by norm_num) (by norm_num) ⟨3, 7⟩ ⟨1 / 2, 1 / 3⟩

/-- C9: the 1D conversion maps 0 to -1, the full length to 1 and the
midpoint to 0, exactly, for every positive length. -/
theorem boundary_mapping (L : Nat) (hL : 0 < L) :
    abs_to_scaled_1d 0 L = -1 ∧ abs_to_scaled_1d (L : ℚ) L = 1 ∧
      abs_to_scaled_1d ((L : ℚ) / 2) L = 0 := by
  have hL' : (L : ℚ) ≠ 0 := Nat.cast_ne_zero.mpr (by omega)
  refine ⟨?_, ?_, ?_⟩ <;> (unfold abs_to_scaled_1d; field_simp) <;> ring_nf

/-- C9, witness. -/
theorem boundary_mapping_witness :
    abs_to_scaled_1d 0 7 = -1 ∧ abs_to_scaled_1d ((7 : Nat) : ℚ) 7 = 1 ∧
      abs_to_scaled_1d (((7 : Nat) : ℚ) / 2) 7 = 0 :=
  boundary_mapping 7 (by norm_num)

end CoordinateConverter

section InputQueue

/-- Rust `IO_EVENTS_CAPACITY` from `src/scene.rs`. -/
def IO_EVENTS_CAPACITY : Nat := 8

/-- Rust `submit_user_input`: when the queue is exactly at capacity, pop the
front (oldest) event, then push the new event at the back.  The queue is
modelled head-first, so `pop_front` is `drop 1` and `push_back` appends. -/
def submit_user_input {ε : Type} (user_inputs : List ε) (user_input : ε) :
    List ε :=
  (if user_inputs.length = IO_EVENTS_CAPACITY then user_inputs.drop 1
    else user_inputs) ++ [user_input]

/-- C6: submitting a sequence of events to the initially empty queue
retains exactly the last `min(n, 8)` of them in FIFO order, and a
submission at capacity evicts exactly the oldest buffered event before
pushing. -/
theorem queue_drop_oldest {ε : Type} (es : List ε) :
    es.foldl submit_user_input [] =
        es.drop (es.length - IO_EVENTS_CAPACITY) ∧
      ∀ (q : List ε) (e : ε), q.length = IO_EVENTS_CAPACITY →
        submit_user_input q e = q.drop 1 ++ [e] := by
  constructor
  · induction es using List.reverseRecOn with
    | nil => simp
    | append_singleton rs r ih =>
      rw [List.foldl_append, List.foldl_cons, List.foldl_nil, ih]
      by_cases hn : rs.length < IO_EVENTS_CAPACITY
      · rw [show rs.length - IO_EVENTS_CAPACITY = 0 from by omega,
          List.drop_zero, submit_user_input, if_neg (by omega),
          show (rs ++ [r]).length - IO_EVENTS_CAPACITY = 0 from by
            simp
            omega,
          List.drop_zero]
      · push_neg at hn
        have hlen : (rs.drop (rs.length - IO_EVENTS_CAPACITY)).length =
            IO_EVENTS_CAPACITY := by
          rw [List.length_drop]
          omega
        rw [submit_user_input, if_pos hlen, List.drop_drop,
          show rs.length - IO_EVENTS_CAPACITY + 1 =
            (rs ++ [r]).length - IO_EVENTS_CAPACITY from by
              simp [IO_EVENTS_CAPACITY] at hn ⊢ <;> omega,
          List.drop_append_of_le_length (by
            simp [IO_EVENTS_CAPACITY] at hn ⊢ <;> omega)]
  · intro q e hq
    rw [submit_user_input, if_pos hq]

/-- C6, witness: a full queue evicts its oldest entry. -/
theorem queue_drop_oldest_witness :
    submit_user_input [0, 1, 2, 3, 4, 5, 6, 7] (8 : Nat) =
      [0, 1, 2, 3, 4, 5, 6, 7].drop 1 ++ [8] :=
  (queue_drop_oldest ([] : List Nat)).2 [0, 1, 2, 3, 4, 5, 6, 7] 8 (by decide)

end InputQueue

section ObjectStore

variable {Obj : Type}

/-- Rust `ObjectEngine` from `src/rendering_engine/object_engine.rs`: a
`BTreeMap<usize, Vec<Object>>` keyed by layer, modelled as an association
list (lookup-based semantics; map ordering is irrelevant to the claims). -/
structure ObjectEngine (Obj : Type) where
  object_matrix : List (Nat × List Obj)
  deriving DecidableEq

/-- Rust `get_object`: `get(&key.0)?` then `row.get(key.1)?` — both accesses
yield `None` on a miss, never a panic. -/
def get_object (e : ObjectEngine Obj) (key : Nat × Nat) : Option Obj :=
  (e.object_matrix.lookup key.1).bind fun object_row => object_row.get? key.2

/-- Rust `remove_object`: `get_mut(&key.0)?` returns `None` when the layer is
absent; otherwise `Vec::remove(key.1)` is called, which panics
(`Except.error ()`) when the index is not below the row length, and
otherwise removes and returns the object at that index. -/
def remove_object (e : ObjectEngine Obj) (key : Nat × Nat) :
    Except Unit (Option Obj × ObjectEngine Obj) :=
  match e.object_matrix.lookup key.1 with
  | none => .ok (none, e)
  | some object_row =>
    if h : key.2 < object_row.length then
      .ok (some (object_row.get ⟨key.2, h⟩),
        ⟨e.object_matrix.map fun kv =>
          if kv.1 = key.1 then (kv.1, object_row.eraseIdx key.2) else kv⟩)
    else .error ()

/-- A key is stale when its layer is absent or its index no longer refers
to a live slot of the row of that layer. -/
def is_stale (e : ObjectEngine Obj) (key : Nat × Nat) : Bool :=
  match e.object_matrix.lookup key.1 with
  | none => true
  | some object_row => decide (object_row.length ≤ key.2)

/-- C3, amended: on a stale key `get_object` returns `none` without
failing (and, being read-only, leaves the store unchanged); `remove_object`
returns `none` with the store unchanged when the layer of the key is absent, but
when the layer still exists and the index is out of the bounds of its row,
`Vec::remove` panics instead of returning `none`. -/
theorem stale_key_lookup (e : ObjectEngine Obj) (key : Nat × Nat)
    (hstale : is_stale e key = true) :
    get_object e key = none ∧
      (e.object_matrix.lookup key.1 = none →
        remove_object e key = .ok (none, e)) ∧
      ∀ object_row, e.object_matrix.lookup key.1 = some object_row →
        remove_object e key = .error () := by
  refine ⟨?_, ?_, ?_⟩
  · rw [get_object]
    rcases hl : e.object_matrix.lookup key.1 with _ | object_row
    · rfl
    · rw [is_stale, hl] at hstale
      have hge : object_row.length ≤ key.2 := of_decide_eq_true hstale
      exact List.get?_eq_none.mpr hge
  · intro hnone
    rw [remove_object, hnone]
  · intro object_row hrow
    rw [is_stale, hrow] at hstale
    have hge : object_row.length ≤ key.2 := of_decide_eq_true hstale
    rw [remove_object, hrow]
    exact dif_neg (by omega)

/-- C3, witness: both misses behave as stated on a store without the
layer. -/
theorem stale_key_lookup_witness :
    get_object (⟨[(1, [5])]⟩ : ObjectEngine Nat) (0, 0) = none ∧
      ((⟨[(1, [5])]⟩ : ObjectEngine Nat).object_matrix.lookup 0 = none →
        remove_object (⟨[(1, [5])]⟩ : ObjectEngine Nat) (0, 0) =
          .ok (none, ⟨[(1, [5])]⟩)) ∧
      ∀ object_row,
        (⟨[(1, [5])]⟩ : ObjectEngine Nat).object_matrix.lookup 0 =
            some object_row →
          remove_object (⟨[(1, [5])]⟩ : ObjectEngine Nat) (0, 0) =
            .error () :=
  stale_key_lookup ⟨[(1, [5])]⟩ (0, 0) (by decide)

/-- C3, counterexample: a store whose layer 0 still exists but is empty
(exactly the state left behind by removing the last object of a layer).
The key `(0, 0)` is stale, yet `remove_object` panics
(`Vec::remove` index out of bounds) instead of returning `none`. -/
theorem remove_object_panics_on_stale_index :
    is_stale (⟨[(0, [])]⟩ : ObjectEngine Nat) (0, 0) = true ∧
      remove_object (⟨[(0, [])]⟩ : ObjectEngine Nat) (0, 0) = .error () :=
  ⟨rfl, rfl⟩

end ObjectStore

section SceneDispatcher

/-- Rust `IoEvent` from `src/scene.rs`; the `(state, button)` payload of
`MouseInput` is an opaque token, positions are exact rationals standing in
for `f64`. -/
inductive IoEvent where
  | cursorMoved (position : ℚ × ℚ)
  | mouseInput (input : Nat)
  deriving DecidableEq

/-- Rust `Rectangle` from `src/scene.rs`: corners in relative (normalized)
coordinates, a solid color, and an optional `on_touch` callback.  The
closure itself is opaque; we record its identity so that invocations can
be observed. -/
structure Rectangle where
  top_left : ℚ × ℚ
  bottom_right : ℚ × ℚ
  color : ℚ × ℚ × ℚ × ℚ
  on_touch : Option Nat
  deriving DecidableEq

/-- Rust `absolute_to_relative_1d(a, length) = (a / length as f64) * 2. - 1.`. -/
def absolute_to_relative_1d (a : ℚ) (length : Nat) : ℚ :=
  a / (length : ℚ) * 2 - 1

/-- Rust `absolute_to_relative`: per-axis conversion with y negated. -/
def absolute_to_relative (size : Nat × Nat) (absolute_position : ℚ × ℚ) :
    ℚ × ℚ :=
  (absolute_to_relative_1d absolute_position.1 size.1,
    -(absolute_to_relative_1d absolute_position.2 size.2))

/-- Rust `does_hit` as defined (but never called) inside `run_callback`:
`x1 <= x && x <= x2 && y2 <= y && y <= y1` against the relative-space
corners. -/
def does_hit (rectangle : Rectangle) (pos : ℚ × ℚ) : Prop :=
  rectangle.top_left.1 ≤ pos.1 ∧ pos.1 ≤ rectangle.bottom_right.1 ∧
    rectangle.bottom_right.2 ≤ pos.2 ∧ pos.2 ≤ rectangle.top_left.2

instance (rectangle : Rectangle) (pos : ℚ × ℚ) :
    Decidable (does_hit rectangle pos) := by
  unfold does_hit
  infer_instance

/-- Rust `run_callback` from `src/scene.rs`, returning the identities of the
callbacks it invokes: it converts the cursor to relative coordinates and
loops over the rectangles of the scene, but the hit test, callback selection
and callback invocation inside the loop are commented out in the source,
so the loop body does nothing and no callback is ever invoked. -/
def run_callback (scene : List Rectangle) (size : Nat × Nat)
    (absolute_position : ℚ × ℚ) : List Nat :=
  let _relative_position := absolute_to_relative size absolute_position
  scene.foldl (fun invoked _rectangle => invoked) []

/-- Rust `handle_user_inputs`: drain the queue front-first; `CursorMoved`
stores the position (last write wins), `MouseInput` calls `run_callback`
when a cursor position is known.  Returns the final cursor position and
the identities of all callbacks invoked during the drain (the queue is
left empty and the scene is not mutated). -/
def handle_user_inputs (scene : List Rectangle) (size : Nat × Nat) :
    List IoEvent → Option (ℚ × ℚ) → Option (ℚ × ℚ) × List Nat
  | [], cursor_position => (cursor_position, [])
  | IoEvent.cursorMoved position :: rest, _ =>
    handle_user_inputs scene size rest (some position)
  | IoEvent.mouseInput _ :: rest, cursor_position =>
    let invoked :=
      match cursor_position with
      | some absolute_cursor_position =>
        run_callback scene size absolute_cursor_position
      | none => []
    let next := handle_user_inputs scene size rest cursor_position
    (next.1, invoked ++ next.2)

/-- C2 evidence: a full-viewport rectangle with a registered callback, a
`CursorMoved` then `MouseInput` queue, and a cursor that hits the
rectangle — the relative cursor position lies inside it and the callback
is registered — yet draining the queue invokes no callback at all:
the dispatch body of `run_callback` is commented out in the source. -/
theorem button_dispatch_invokes_no_callback :
    (handle_user_inputs [⟨(-1, 1), (1, -1), (0, 0, 0, 1), some 0⟩] (2, 2)
        [IoEvent.cursorMoved (1, 1), IoEvent.mouseInput 0] none).2 = [] ∧
      (∃ r ∈ [(⟨(-1, 1), (1, -1), (0, 0, 0, 1), some 0⟩ : Rectangle)],
        does_hit r (absolute_to_relative (2, 2) (1, 1)) ∧
          r.on_touch.isSome) := by
  constructor
  · rfl
  · refine ⟨_, List.mem_singleton_self _, ?_, rfl⟩
    show (-1 : ℚ) ≤ 1 / (2 : ℚ) * 2 - 1 ∧ 1 / (2 : ℚ) * 2 - 1 ≤ 1 ∧
      (-1 : ℚ) ≤ -(1 / (2 : ℚ) * 2 - 1) ∧ -(1 / (2 : ℚ) * 2 - 1) ≤ 1
    norm_num

end SceneDispatcher

end Metallic
